import Mathlib

/-!
# Verification of the BBF/SPR training-controller against its specification

Shallow embedding of `bbf/agents/spr_agent.py`.  Numeric tensors are modelled
over `ℚ` where the code only uses field operations (clipping, interpolation,
the categorical projection), and over `ℝ` where the code genuinely needs
`sqrt`/`log`/`exp` (latent normalization, priorities, the exponential decay
scheduler).  Parameter/optimizer trees are modelled as finite string-keyed
trees, and fallible dictionary indexing is modelled with `Option`.
-/

namespace SprAgent

/-! ## `prefetch_to_device` (source lines 79-90)

The generator fills a deque with up to `size` elements of the underlying
iterator, then repeatedly yields the front of the deque and enqueues one more
element.  The iterator is modelled as the list of elements it will produce. -/

/-- The main loop of `prefetch_to_device`: `queue` is the current deque
contents, `rest` is what remains of the underlying iterator.  Each iteration
yields `queue.popleft()` and runs `enqueue(1)`, i.e. appends `rest.take 1`. -/
def prefetchLoop {α : Type} : List α → List α → List α
  | [], _ => []
  | q :: qs, rest => q :: prefetchLoop (qs ++ rest.take 1) (rest.drop 1)
termination_by queue rest => queue.length + rest.length
decreasing_by
  simp [List.length_append, List.length_take, List.length_drop]
  omega

/-- `prefetch_to_device iterator size`: `enqueue(size)` fills the deque with
the first `size` elements, then the loop runs on the remainder. -/
def prefetch_to_device {α : Type} (iterator : List α) (size : ℕ) : List α :=
  prefetchLoop (iterator.take size) (iterator.drop size)

/-- The successive lengths of the internal deque, observed at the top of each
loop iteration (after the corresponding `enqueue`). -/
def prefetchQueueLens {α : Type} : List α → List α → List ℕ
  | [], _ => []
  | q :: qs, rest =>
      (q :: qs).length :: prefetchQueueLens (qs ++ rest.take 1) (rest.drop 1)
termination_by queue rest => queue.length + rest.length
decreasing_by
  simp [List.length_append, List.length_take, List.length_drop]
  omega

lemma prefetchLoop_eq_append {α : Type} :
    ∀ (q rest : List α), (q = [] → rest = []) → prefetchLoop q rest = q ++ rest
  | [], rest, h => by simp [prefetchLoop, h rfl]
  | x :: qs, rest, _ => by
    rw [prefetchLoop]
    have hrec : prefetchLoop (qs ++ rest.take 1) (rest.drop 1)
        = (qs ++ rest.take 1) ++ rest.drop 1 := by
      apply prefetchLoop_eq_append
      intro hempty
      have h1 : rest.take 1 = [] := by
        rcases List.append_eq_nil.mp hempty with ⟨_, h2⟩
        exact h2
      cases rest with
      | nil => rfl
      | cons r rs => simp [List.take] at h1
    rw [hrec, List.append_assoc, List.take_append_drop]
    simp
termination_by q rest => q.length + rest.length
decreasing_by
  simp [List.length_append, List.length_take, List.length_drop]
  omega

lemma prefetchQueueLens_bound {α : Type} (size : ℕ) :
    ∀ (q rest : List α), q.length ≤ size →
      ∀ n ∈ prefetchQueueLens q rest, n ≤ size
  | [], _, _ => by simp [prefetchQueueLens]
  | x :: qs, rest, hq => by
    rw [prefetchQueueLens]
    intro n hn
    rcases List.mem_cons.mp hn with h | h
    · simpa [h] using hq
    · have hlen : (qs ++ rest.take 1).length ≤ size := by
        simp only [List.length_append, List.length_take]
        simp only [List.length_cons] at hq
        omega
      exact prefetchQueueLens_bound size (qs ++ rest.take 1) (rest.drop 1)
        hlen n h
termination_by q rest => q.length + rest.length
decreasing_by
  simp [List.length_append, List.length_take, List.length_drop]
  omega

/-! ## `project_distribution` (source lines 30-70)

`supports`, `weights` and `target_support` are 1-D arrays, modelled as lists
of rationals.  Following the source: `v_min`/`v_max` are the first and last
elements of `target_support`, `delta_z = (v_max - v_min) / (num_dims - 1)`,
input support values are clipped to `[v_min, v_max]`, and each target atom
`z` accumulates `clip(1 - |clipped - z| / delta_z, 0, 1) * weight`. -/

/-- `jnp.clip(x, lo, hi)`. -/
def clipQ (x lo hi : ℚ) : ℚ := min (max x lo) hi

/-- The projection coefficient a support point `s` contributes to the target
atom `z`: `clipped_quotient = clip(1 - |clip(s, v_min, v_max) - z| / delta_z, 0, 1)`
from the source. -/
def projectionCoeff (v_min v_max delta_z z s : ℚ) : ℚ :=
  clipQ (1 - |clipQ s v_min v_max - z| / delta_z) 0 1

/-- `project_distribution(supports, weights, target_support)`.  `num_dims - 1`
is exact integer arithmetic in the source; for `num_dims ≥ 2` the rational
`(num_dims : ℚ) - 1` used here coincides with it. -/
def project_distribution (supports weights target_support : List ℚ) : List ℚ :=
  let v_min := target_support.headI
  let v_max := target_support.getD (target_support.length - 1) 0
  let num_dims := target_support.length
  let delta_z := (v_max - v_min) / ((num_dims : ℚ) - 1)
  target_support.map (fun z =>
    (List.zipWith (fun s w => projectionCoeff v_min v_max delta_z z s * w)
      supports weights).sum)

/-- `jnp.linspace(v_min, v_max, n)`: the strictly increasing, equally spaced
support used by the agent (`self._support`); `delta` is the atom spacing. -/
def linearSupport (v_min delta : ℚ) (n : ℕ) : List ℚ :=
  (List.range n).map (fun i : ℕ => v_min + (i : ℚ) * delta)

lemma clipQ_of_nonpos {x : ℚ} (h : x ≤ 0) : clipQ x 0 1 = 0 := by
  simp only [clipQ]
  rw [max_eq_right h, min_eq_left (by norm_num : (0:ℚ) ≤ 1)]

lemma clipQ_of_mem {x : ℚ} (h0 : 0 ≤ x) (h1 : x ≤ 1) : clipQ x 0 1 = x := by
  simp only [clipQ]
  rw [max_eq_left h0, min_eq_left h1]

lemma clipQ_nonneg (x : ℚ) : 0 ≤ clipQ x 0 1 :=
  le_min (le_max_right x 0) zero_le_one

lemma clipQ_mem {x lo hi : ℚ} (h : lo ≤ hi) :
    lo ≤ clipQ x lo hi ∧ clipQ x lo hi ≤ hi :=
  ⟨le_min (le_max_right x lo) h, min_le_right _ _⟩

lemma clipQ_of_le {x lo hi : ℚ} (h1 : lo ≤ x) (h2 : x ≤ hi) :
    clipQ x lo hi = x := by
  simp only [clipQ]
  rw [max_eq_left h1, min_eq_left h2]

lemma linearSupport_length (v d : ℚ) (n : ℕ) :
    (linearSupport v d n).length = n := by
  rw [linearSupport, List.length_map, List.length_range]

lemma linearSupport_headI (v d : ℚ) {n : ℕ} (hn : 1 ≤ n) :
    (linearSupport v d n).headI = v := by
  rcases Nat.exists_eq_succ_of_ne_zero (by omega : n ≠ 0) with ⟨m, rfl⟩
  simp [linearSupport, List.range_succ_eq_map]

lemma linearSupport_getD (v d : ℚ) {n i : ℕ} (hi : i < n) :
    (linearSupport v d n).getD i 0 = v + (i : ℚ) * d := by
  rw [linearSupport, List.getD_eq_getElem _ _
    (by rw [List.length_map, List.length_range]; exact hi)]
  rw [List.getElem_map, List.getElem_range]

/-- Sum over `List.range` equals the `Finset.range` sum. -/
lemma sum_list_range (f : ℕ → ℚ) (n : ℕ) :
    ((List.range n).map f).sum = ∑ i ∈ Finset.range n, f i := by
  induction n with
  | zero => simp
  | succ m ih => rw [List.range_succ, Finset.sum_range_succ]; simp [ih]

/-- A `zipWith`-sum as an indexed `Finset` sum. -/
lemma zipWith_sum_getD (f : ℚ → ℚ → ℚ) :
    ∀ (a b : List ℚ), a.length = b.length →
      (List.zipWith f a b).sum
        = ∑ j ∈ Finset.range a.length, f (a.getD j 0) (b.getD j 0)
  | [], b, _ => by simp
  | x :: xs, [], h => by simp at h
  | x :: xs, y :: ys, h => by
    simp only [List.zipWith_cons_cons, List.sum_cons, List.length_cons]
    rw [Finset.sum_range_succ']
    simp only [List.getD_cons_succ, List.getD_cons_zero]
    rw [zipWith_sum_getD f xs ys (by simpa using h)]
    ring

/-- The key geometric fact behind mass conservation: for `t ∈ [0, n-1]` the
triangular-kernel weights at the integer grid points sum to `1`. -/
lemma clip_kernel_sum (n : ℕ) (hn : 1 ≤ n) (t : ℚ) (h0 : 0 ≤ t)
    (h1 : t ≤ (n : ℚ) - 1) :
    ∑ i ∈ Finset.range n, clipQ (1 - |t - (i : ℚ)|) 0 1 = 1 := by
  rcases eq_or_lt_of_le h1 with heq | hlt
  · rw [Finset.sum_eq_single (n - 1)]
    · have hcast : (((n - 1 : ℕ)) : ℚ) = t := by
        rw [heq]; push_cast [hn]; ring
      rw [hcast]
      simp [clipQ]
    · intro i hi hne
      have hin : i < n := Finset.mem_range.mp hi
      have hile : i + 1 ≤ n - 1 := by omega
      have hle : (i : ℚ) + 1 ≤ t := by
        have h2 : ((i + 1 : ℕ) : ℚ) ≤ ((n - 1 : ℕ) : ℚ) := by exact_mod_cast hile
        have h3 : (((n - 1 : ℕ)) : ℚ) = (n : ℚ) - 1 := by push_cast [hn]; ring
        rw [h3] at h2
        push_cast at h2
        linarith [heq ▸ h2]
      have habs : |t - (i : ℚ)| = t - i := abs_of_nonneg (by linarith)
      exact clipQ_of_nonpos (by rw [habs]; linarith)
    · intro h
      exact absurd (Finset.mem_range.mpr (by omega)) h
  · set k := ⌊t⌋₊ with hkdef
    have hk1 : (k : ℚ) ≤ t := Nat.floor_le h0
    have hk2 : t < (k : ℚ) + 1 := Nat.lt_floor_add_one t
    have hkn : k + 1 < n := by
      have ha : (k : ℚ) + 1 < (n : ℚ) := by linarith
      exact_mod_cast ha
    have hsub : ({k, k + 1} : Finset ℕ) ⊆ Finset.range n := by
      intro i hi
      rcases Finset.mem_insert.mp hi with rfl | hi
      · exact Finset.mem_range.mpr (by omega)
      · rw [Finset.mem_singleton.mp hi]
        exact Finset.mem_range.mpr (by omega)
    have hzero : ∀ i ∈ Finset.range n, i ∉ ({k, k + 1} : Finset ℕ) →
        clipQ (1 - |t - (i : ℚ)|) 0 1 = 0 := by
      intro i _ hi
      have hik : i ≠ k := fun h => hi (by simp [h])
      have hik1 : i ≠ k + 1 := fun h => hi (by simp [h])
      rcases Nat.lt_or_ge i k with hlo | hhi
      · have : (i : ℚ) + 1 ≤ (k : ℚ) := by exact_mod_cast hlo
        have habs : |t - (i : ℚ)| = t - i := abs_of_nonneg (by linarith)
        exact clipQ_of_nonpos (by rw [habs]; linarith)
      · have hge : k + 2 ≤ i := by omega
        have : (k : ℚ) + 2 ≤ (i : ℚ) := by exact_mod_cast hge
        have habs : |t - (i : ℚ)| = (i : ℚ) - t := by
          rw [abs_sub_comm]; exact abs_of_nonneg (by linarith)
        exact clipQ_of_nonpos (by rw [habs]; linarith)
    rw [← Finset.sum_subset hsub hzero,
      Finset.sum_pair (by omega : k ≠ k + 1)]
    have habs1 : |t - (k : ℚ)| = t - k := abs_of_nonneg (by linarith)
    have habs2 : |t - ((k : ℚ) + 1)| = (k : ℚ) + 1 - t := by
      rw [abs_sub_comm]; exact abs_of_nonneg (by linarith)
    push_cast
    rw [habs1, habs2, clipQ_of_mem (by linarith) (by linarith),
      clipQ_of_mem (by linarith) (by linarith)]
    ring

/-- On an equally spaced support of `n ≥ 2` atoms, the `v_min`, `v_max` and
`delta_z` computed by `project_distribution` from the list are `v`,
`v + (n-1)·d` and `d`. -/
lemma project_distribution_linear (supports weights : List ℚ) (v d : ℚ)
    (n : ℕ) (hn : 2 ≤ n) :
    project_distribution supports weights (linearSupport v d n) =
      (linearSupport v d n).map (fun z =>
        (List.zipWith (fun s w =>
          projectionCoeff v (v + ((n : ℚ) - 1) * d) d z s * w)
          supports weights).sum) := by
  have h1n : 1 ≤ n := by omega
  simp only [project_distribution]
  rw [linearSupport_length, linearSupport_headI v d h1n,
    linearSupport_getD v d (show n - 1 < n by omega)]
  have hcast : (((n - 1 : ℕ)) : ℚ) = (n : ℚ) - 1 := by push_cast [h1n]; ring
  rw [hcast]
  have hne : (n : ℚ) - 1 ≠ 0 := by
    have h2 : (2 : ℚ) ≤ (n : ℚ) := by exact_mod_cast hn
    linarith
  have hdz : (v + ((n : ℚ) - 1) * d - v) / ((n : ℚ) - 1) = d := by
    field_simp
  rw [hdz]

/-- Exchanging the atom sum and the support-point sum. -/
lemma proj_zipWith_swap (ts : List ℚ) (f : ℚ → ℚ → ℚ) :
    ∀ (ss ws : List ℚ),
      (ts.map (fun z => (List.zipWith (fun s w => f z s * w) ss ws).sum)).sum
        = (List.zipWith (fun s w => (ts.map (fun z => f z s)).sum * w)
            ss ws).sum
  | [], ws => by simp
  | s :: ss, [] => by simp
  | s :: ss, w :: ws => by
    simp only [List.zipWith_cons_cons, List.sum_cons]
    rw [← proj_zipWith_swap ts f ss ws, List.sum_map_add,
      List.sum_map_mul_right]

lemma zipWith_pointmass_one (g : ℚ → ℚ) (hg : ∀ s, g s = 1) :
    ∀ (ss ws : List ℚ), ss.length = ws.length →
      (List.zipWith (fun s w => g s * w) ss ws).sum = ws.sum
  | [], [], _ => by simp
  | [], w :: ws, h => by simp at h
  | s :: ss, [], h => by simp at h
  | s :: ss, w :: ws, h => by
    simp only [List.zipWith_cons_cons, List.sum_cons]
    rw [zipWith_pointmass_one g hg ss ws (by simpa using h), hg s, one_mul]

lemma zipWith_sum_nonneg (f : ℚ → ℚ → ℚ) :
    ∀ (ss ws : List ℚ), (∀ s w, w ∈ ws → 0 ≤ f s w) →
      0 ≤ (List.zipWith f ss ws).sum
  | [], _, _ => by simp
  | _ :: _, [], _ => by simp
  | s :: ss, w :: ws, h => by
    simp only [List.zipWith_cons_cons, List.sum_cons]
    have h1 : 0 ≤ f s w := h s w (List.mem_cons_self w ws)
    have h2 : 0 ≤ (List.zipWith f ss ws).sum :=
      zipWith_sum_nonneg f ss ws (fun s' w' hw' => h s' w' (List.mem_cons_of_mem w hw'))
    linarith

/-- Every (clipped) support point spreads exactly unit mass over the atoms. -/
lemma pointMass_eq_one (n : ℕ) (hn : 2 ≤ n) (v d : ℚ) (hd : 0 < d) (s : ℚ) :
    ((linearSupport v d n).map
      (fun z => projectionCoeff v (v + ((n : ℚ) - 1) * d) d z s)).sum = 1 := by
  have h2 : (2 : ℚ) ≤ (n : ℚ) := by exact_mod_cast hn
  have hvv : v ≤ v + ((n : ℚ) - 1) * d := by nlinarith
  obtain ⟨hx1, hx2⟩ := @clipQ_mem s _ _ hvv
  set x := clipQ s v (v + ((n : ℚ) - 1) * d) with hxdef
  set t := (x - v) / d with htdef
  have ht0 : 0 ≤ t := div_nonneg (by linarith) (le_of_lt hd)
  have ht1 : t ≤ (n : ℚ) - 1 := by
    rw [htdef, div_le_iff₀ hd]
    linarith
  rw [linearSupport, List.map_map, sum_list_range]
  have hterm : ∀ i : ℕ,
      projectionCoeff v (v + ((n : ℚ) - 1) * d) d (v + (i : ℚ) * d) s
        = clipQ (1 - |t - (i : ℚ)|) 0 1 := by
    intro i
    unfold projectionCoeff
    rw [← hxdef]
    have h1 : t - (i : ℚ) = (x - (v + (i : ℚ) * d)) / d := by
      rw [htdef]; field_simp; ring
    rw [h1, abs_div, abs_of_pos hd]
  calc ∑ i ∈ Finset.range n,
        ((fun z => projectionCoeff v (v + ((n : ℚ) - 1) * d) d z s) ∘
          fun i : ℕ => v + (i : ℚ) * d) i
      = ∑ i ∈ Finset.range n, clipQ (1 - |t - (i : ℚ)|) 0 1 :=
        Finset.sum_congr rfl (fun i _ => hterm i)
    _ = 1 := clip_kernel_sum n (by omega) t ht0 ht1

lemma one_le_abs_cast_sub {i j : ℕ} (h : j ≠ i) :
    (1 : ℚ) ≤ |(j : ℚ) - (i : ℚ)| := by
  rcases Nat.lt_or_ge j i with hlt | hge
  · have hc : (j : ℚ) + 1 ≤ (i : ℚ) := by exact_mod_cast hlt
    rw [abs_sub_comm, abs_of_nonneg (by linarith)]
    linarith
  · have hgt : i < j := by omega
    have hc : (i : ℚ) + 1 ≤ (j : ℚ) := by exact_mod_cast hgt
    rw [abs_of_nonneg (by linarith)]
    linarith

lemma linearSupport_getElem (v d : ℚ) {n i : ℕ} (h : i < (linearSupport v d n).length) :
    (linearSupport v d n)[i] = v + (i : ℚ) * d := by
  rw [← List.getD_eq_getElem _ 0 h]
  exact linearSupport_getD v d (by simpa [linearSupport_length] using h)

/-! ## Parameter trees, `copy_params`, `interpolate_weights`, `jit_reset`

A Flax `FrozenDict` parameter collection is a finite string-keyed tree whose
leaves are numeric tensors; a leaf is modelled by a single rational.
Fallible dictionary indexing (`d[k]`) is modelled with `Option`. -/

inductive PTree where
  | leaf : ℚ → PTree
  | node : List (String × PTree) → PTree

namespace PTree

/-- `d[k]` on a dict; `none` when the key is absent or `t` is a leaf array. -/
def find? (t : PTree) (k : String) : Option PTree :=
  match t with
  | .leaf _ => none
  | .node cs => cs.lookup k

end PTree

mutual

/-- `copy_params(source, target, keys)` (source lines 98-120): an entry whose
key is in `keys` is taken from `source` unchanged; any other entry is rebuilt
recursively so that its leaves come from `target`.  A leaf source returns
`target`; indexing a leaf target or a missing key is an error (`none`). -/
def copyParams : PTree → PTree → List String → Option PTree
  | PTree.node cs, t, keys =>
      match copyChildren cs t keys with
      | some cs' => some (PTree.node cs')
      | none => none
  | PTree.leaf _, t, _ => some t

/-- One pass of the `for k, v in source.items()` loop of `copy_params`. -/
def copyChildren : List (String × PTree) → PTree → List String →
    Option (List (String × PTree))
  | [], _, _ => some []
  | (k, v) :: rest, t, keys =>
      if k ∈ keys then
        match copyChildren rest t keys with
        | some tail => some ((k, v) :: tail)
        | none => none
      else
        match t with
        | PTree.leaf _ => none
        | PTree.node ct =>
          match ct.lookup k with
          | none => none
          | some tv =>
            match copyParams v tv keys with
            | none => none
            | some r =>
              match copyChildren rest t keys with
              | some tail => some ((k, r) :: tail)
              | none => none

end

mutual

/-- `jax.tree_util.tree_map(f, a, b)`: zips two trees of identical treedef;
any structural mismatch is an error (`none`). -/
def treeMap2 (f : ℚ → ℚ → ℚ) : PTree → PTree → Option PTree
  | PTree.leaf a, PTree.leaf b => some (PTree.leaf (f a b))
  | PTree.node cs, PTree.node ct =>
      match treeMap2Children f cs ct with
      | some cs' => some (PTree.node cs')
      | none => none
  | _, _ => none

def treeMap2Children (f : ℚ → ℚ → ℚ) :
    List (String × PTree) → List (String × PTree) →
      Option (List (String × PTree))
  | [], [] => some []
  | (k, v) :: rest, (k', v') :: rest' =>
      if k = k' then
        match treeMap2 f v v' with
        | some r =>
          match treeMap2Children f rest rest' with
          | some tail => some ((k, r) :: tail)
          | none => none
        | none => none
      else none
  | _, _ => none

end

/-- The body of `interpolate_weights`' per-key computation:
`jax.tree_util.tree_map(combination, old_params[k], new_params[k])`. -/
def interpolateEntry (cs : List (String × PTree)) (new' : PTree)
    (f : ℚ → ℚ → ℚ) (k : String) : Option PTree := do
  let ov ← cs.lookup k
  let nv ← new'.find? k
  treeMap2 f ov nv

/-- `interpolate_weights(old_params, new_params, keys, old_weight, new_weight,
strip_params_layer)` (source lines 124-166).  `keys = none` interpolates
every top-level key; keys not interpolated are carried over from
`old_params` unchanged. -/
def interpolate_weights (old_params new_params : PTree)
    (keys : Option (List String)) (old_weight new_weight : ℚ)
    (strip_params_layer : Bool) : Option PTree := do
  let old' ← if strip_params_layer then old_params.find? "params"
             else some old_params
  let new' ← if strip_params_layer then new_params.find? "params"
             else some new_params
  match old' with
  | PTree.leaf _ => none
  | PTree.node cs => do
    let ks := keys.getD (cs.map Prod.fst)
    let combined ← ks.mapM (fun k => do
      let r ← interpolateEntry cs new'
        (fun o n => o * old_weight + n * new_weight) k
      pure (k, r))
    let rest := cs.filter (fun p => !(ks.contains p.1))
    let result := PTree.node (combined ++ rest)
    pure (if strip_params_layer then PTree.node [("params", result)]
          else result)

/-- The online-parameter portion of `jit_reset` (source lines 241-250).  The
freshly drawn initialization `random_params` is an input here because the
network initializer is an external module.  When `shrink_perturb_keys` is
nonempty the old parameters are first interpolated toward the fresh draw;
`copy_params` then keeps the `keys_to_copy` groups from the (possibly
interpolated) old parameters while every other entry comes from the fresh
draw. -/
def jit_reset_online (online_params random_params : PTree)
    (shrink_perturb_keys : List String) (shrink_factor perturb_factor : ℚ)
    (keys_to_copy : List String) : Option PTree := do
  let online' ←
    if shrink_perturb_keys ≠ [] then
      interpolate_weights online_params random_params
        (some shrink_perturb_keys) shrink_factor perturb_factor true
    else some online_params
  copyParams online' random_params keys_to_copy

/-- Look up a top-level parameter group below the `"params"` layer. -/
def findGroup (t : PTree) (k : String) : Option PTree :=
  (t.find? "params").bind (fun p => p.find? k)

mutual

/-- Two trees have the same key skeleton (the invariant the spec requires of
the online/target/fresh parameter sets). -/
def sameShape : PTree → PTree → Bool
  | PTree.leaf _, PTree.leaf _ => true
  | PTree.node cs, PTree.node ct => sameShapeChildren cs ct
  | _, _ => false

def sameShapeChildren :
    List (String × PTree) → List (String × PTree) → Bool
  | [], [] => true
  | (k, v) :: rest, (k', v') :: rest' =>
      k = k' && sameShape v v' && sameShapeChildren rest rest'
  | _, _ => false

end

mutual

/-- No node key anywhere inside the tree belongs to `keys`. -/
def disjointKeys : PTree → List String → Bool
  | PTree.leaf _, _ => true
  | PTree.node cs, keys => disjointKeysChildren cs keys

def disjointKeysChildren : List (String × PTree) → List String → Bool
  | [], _ => true
  | (k, v) :: rest, keys =>
      !(decide (k ∈ keys)) && disjointKeys v keys
        && disjointKeysChildren rest keys

end

mutual

/-- The keys under every node of the tree are pairwise distinct. -/
def nodupKeys : PTree → Bool
  | PTree.leaf _ => true
  | PTree.node cs => decide ((cs.map Prod.fst).Nodup) && nodupKeysChildren cs

def nodupKeysChildren : List (String × PTree) → Bool
  | [] => true
  | (_, v) :: rest => nodupKeys v && nodupKeysChildren rest

end

mutual

lemma treeMap2_left (f : ℚ → ℚ → ℚ) (hf : ∀ o n, f o n = o) :
    ∀ (a b c : PTree), treeMap2 f a b = some c → c = a
  | PTree.leaf a, PTree.leaf b, c, h => by
      simp only [treeMap2] at h
      injection h with h
      rw [← h, hf]
  | PTree.leaf _, PTree.node _, c, h => by
      simp only [treeMap2] at h
      exact Option.noConfusion h
  | PTree.node _, PTree.leaf _, c, h => by
      simp only [treeMap2] at h
      exact Option.noConfusion h
  | PTree.node cs, PTree.node ct, c, h => by
      simp only [treeMap2] at h
      cases hm : treeMap2Children f cs ct with
      | none => rw [hm] at h; exact absurd h (by simp)
      | some cs' =>
          rw [hm] at h
          injection h with h
          rw [← h, treeMap2Children_left f hf cs ct cs' hm]

lemma treeMap2Children_left (f : ℚ → ℚ → ℚ) (hf : ∀ o n, f o n = o) :
    ∀ (cs ct cs' : List (String × PTree)),
      treeMap2Children f cs ct = some cs' → cs' = cs
  | [], [], cs', h => by
      simp only [treeMap2Children] at h
      injection h with h
      exact h.symm
  | [], _ :: _, cs', h => by
      simp only [treeMap2Children] at h
      exact Option.noConfusion h
  | _ :: _, [], cs', h => by
      simp only [treeMap2Children] at h
      exact Option.noConfusion h
  | (k, v) :: rest, (k', v') :: rest', cs', h => by
      simp only [treeMap2Children] at h
      by_cases hk : k = k'
      · rw [if_pos hk] at h
        cases hr : treeMap2 f v v' with
        | none => rw [hr] at h; exact absurd h (by simp)
        | some r =>
            rw [hr] at h
            cases htail : treeMap2Children f rest rest' with
            | none => rw [htail] at h; exact absurd h (by simp)
            | some tail =>
                rw [htail] at h
                injection h with h
                rw [← h, treeMap2_left f hf v v' r hr,
                  treeMap2Children_left f hf rest rest' tail htail]
      · rw [if_neg hk] at h
        exact absurd h (by simp)

end

mutual

lemma treeMap2_right (f : ℚ → ℚ → ℚ) (hf : ∀ o n, f o n = n) :
    ∀ (a b c : PTree), treeMap2 f a b = some c → c = b
  | PTree.leaf a, PTree.leaf b, c, h => by
      simp only [treeMap2] at h
      injection h with h
      rw [← h, hf]
  | PTree.leaf _, PTree.node _, c, h => by
      simp only [treeMap2] at h
      exact Option.noConfusion h
  | PTree.node _, PTree.leaf _, c, h => by
      simp only [treeMap2] at h
      exact Option.noConfusion h
  | PTree.node cs, PTree.node ct, c, h => by
      simp only [treeMap2] at h
      cases hm : treeMap2Children f cs ct with
      | none => rw [hm] at h; exact absurd h (by simp)
      | some cs' =>
          rw [hm] at h
          injection h with h
          rw [← h, treeMap2Children_right f hf cs ct cs' hm]

lemma treeMap2Children_right (f : ℚ → ℚ → ℚ) (hf : ∀ o n, f o n = n) :
    ∀ (cs ct cs' : List (String × PTree)),
      treeMap2Children f cs ct = some cs' → cs' = ct
  | [], [], cs', h => by
      simp only [treeMap2Children] at h
      injection h with h
      exact h.symm
  | [], _ :: _, cs', h => by
      simp only [treeMap2Children] at h
      exact Option.noConfusion h
  | _ :: _, [], cs', h => by
      simp only [treeMap2Children] at h
      exact Option.noConfusion h
  | (k, v) :: rest, (k', v') :: rest', cs', h => by
      simp only [treeMap2Children] at h
      by_cases hk : k = k'
      · rw [if_pos hk] at h
        cases hr : treeMap2 f v v' with
        | none => rw [hr] at h; exact absurd h (by simp)
        | some r =>
            rw [hr] at h
            cases htail : treeMap2Children f rest rest' with
            | none => rw [htail] at h; exact absurd h (by simp)
            | some tail =>
                rw [htail] at h
                injection h with h
                rw [← h, treeMap2_right f hf v v' r hr,
                  treeMap2Children_right f hf rest rest' tail htail, hk]
      · rw [if_neg hk] at h
        exact absurd h (by simp)

end

lemma lookup_cons_eq {v : PTree} (k : String)
    (l : List (String × PTree)) : List.lookup k ((k, v) :: l) = some v := by
  simp [List.lookup_cons]

lemma lookup_cons_ne {k k' : String} (hne : k ≠ k') (v : PTree)
    (l : List (String × PTree)) :
    List.lookup k ((k', v) :: l) = List.lookup k l := by
  simp [List.lookup_cons, beq_false_of_ne hne]

/-- A key in `keys` is looked up in the output of `copy_params`' loop exactly
as in the source children. -/
lemma copyChildren_lookup_mem :
    ∀ (cs : List (String × PTree)) (t : PTree) (keys : List String)
      (cs' : List (String × PTree)) (k : String),
      copyChildren cs t keys = some cs' → k ∈ keys →
      cs'.lookup k = cs.lookup k
  | [], t, keys, cs', k, h, hk => by
      simp only [copyChildren] at h
      injection h with h
      rw [← h]
  | (k', v) :: rest, t, keys, cs', k, h, hk => by
      simp only [copyChildren] at h
      by_cases hmem : k' ∈ keys
      · rw [if_pos hmem] at h
        cases htail : copyChildren rest t keys with
        | none => rw [htail] at h; exact Option.noConfusion h
        | some tail =>
            rw [htail] at h
            injection h with h
            rw [← h]
            by_cases hkk : k = k'
            · subst hkk; rw [lookup_cons_eq, lookup_cons_eq]
            · rw [lookup_cons_ne hkk, lookup_cons_ne hkk]
              exact copyChildren_lookup_mem rest t keys tail k htail hk
      · rw [if_neg hmem] at h
        have hkk : k ≠ k' := fun he => hmem (he ▸ hk)
        cases t with
        | leaf _ => exact Option.noConfusion h
        | node ct =>
          dsimp only at h
          cases hlk : ct.lookup k' with
          | none =>
            rw [hlk] at h; dsimp only at h; exact Option.noConfusion h
          | some tv =>
            rw [hlk] at h
            dsimp only at h
            cases hcp : copyParams v tv keys with
            | none =>
              rw [hcp] at h; dsimp only at h; exact Option.noConfusion h
            | some r =>
              rw [hcp] at h
              dsimp only at h
              cases htail : copyChildren rest (PTree.node ct) keys with
              | none =>
                rw [htail] at h; dsimp only at h; exact Option.noConfusion h
              | some tail =>
                rw [htail] at h
                dsimp only at h
                injection h with h
                rw [← h, lookup_cons_ne hkk, lookup_cons_ne hkk]
                exact copyChildren_lookup_mem rest (PTree.node ct) keys
                  tail k htail hk

/-- A key not in `keys` whose entry exists in the source children is rebuilt
by `copy_params` from the corresponding target entry. -/
lemma copyChildren_lookup_not_mem :
    ∀ (cs : List (String × PTree)) (t : PTree) (keys : List String)
      (cs' : List (String × PTree)) (k : String) (v : PTree),
      copyChildren cs t keys = some cs' → k ∉ keys →
      cs.lookup k = some v →
      ∃ tv res, t.find? k = some tv ∧ copyParams v tv keys = some res ∧
        cs'.lookup k = some res
  | [], t, keys, cs', k, v, h, hk, hv => by
      simp only [List.lookup] at hv
      exact Option.noConfusion hv
  | (k', v') :: rest, t, keys, cs', k, v, h, hk, hv => by
      simp only [copyChildren] at h
      by_cases hmem : k' ∈ keys
      · have hkk : k ≠ k' := fun he => hk (he ▸ hmem)
        rw [if_pos hmem] at h
        cases htail : copyChildren rest t keys with
        | none => rw [htail] at h; exact Option.noConfusion h
        | some tail =>
            rw [htail] at h
            injection h with h
            rw [lookup_cons_ne hkk] at hv
            obtain ⟨tv, res, h1, h2, h3⟩ :=
              copyChildren_lookup_not_mem rest t keys tail k v htail hk hv
            exact ⟨tv, res, h1, h2, by rw [← h, lookup_cons_ne hkk]; exact h3⟩
      · rw [if_neg hmem] at h
        cases t with
        | leaf _ => exact Option.noConfusion h
        | node ct =>
          dsimp only at h
          cases hlk : ct.lookup k' with
          | none =>
            rw [hlk] at h; dsimp only at h; exact Option.noConfusion h
          | some tv' =>
            rw [hlk] at h
            dsimp only at h
            cases hcp : copyParams v' tv' keys with
            | none =>
              rw [hcp] at h; dsimp only at h; exact Option.noConfusion h
            | some r =>
              rw [hcp] at h
              dsimp only at h
              cases htail : copyChildren rest (PTree.node ct) keys with
              | none =>
                rw [htail] at h; dsimp only at h; exact Option.noConfusion h
              | some tail =>
                rw [htail] at h
                dsimp only at h
                injection h with h
                by_cases hkk : k = k'
                · subst hkk
                  rw [lookup_cons_eq] at hv
                  injection hv with hv
                  subst hv
                  refine ⟨tv', r, ?_, hcp, ?_⟩
                  · simpa [PTree.find?] using hlk
                  · rw [← h, lookup_cons_eq]
                · rw [lookup_cons_ne hkk] at hv
                  obtain ⟨tv, res, h1, h2, h3⟩ :=
                    copyChildren_lookup_not_mem rest (PTree.node ct) keys
                      tail k v htail hk hv
                  exact ⟨tv, res, h1, h2, by
                    rw [← h, lookup_cons_ne hkk]; exact h3⟩

lemma lookup_eq_none_of_not_mem {k : String} :
    ∀ {l : List (String × PTree)}, k ∉ l.map Prod.fst → l.lookup k = none
  | [], _ => rfl
  | (k', v) :: rest, h => by
      have hk : k ≠ k' := by
        intro he; exact h (by simp [he])
      rw [lookup_cons_ne hk]
      exact lookup_eq_none_of_not_mem (fun hm => h (by simp [hm]))

lemma sameShapeChildren_keys :
    ∀ (cs ct : List (String × PTree)), sameShapeChildren cs ct = true →
      cs.map Prod.fst = ct.map Prod.fst
  | [], [], _ => rfl
  | [], _ :: _, h => by simp [sameShapeChildren] at h
  | _ :: _, [], h => by simp [sameShapeChildren] at h
  | (k, v) :: rest, (k', v') :: rest', h => by
      simp only [sameShapeChildren, Bool.and_eq_true, decide_eq_true_eq] at h
      simp only [List.map_cons, h.1.1]
      rw [sameShapeChildren_keys rest rest' h.2]

mutual

/-- On trees of identical shape whose node keys avoid `keys` everywhere (and
whose keys are duplicate-free), `copy_params` returns the target verbatim. -/
lemma copyParams_of_disjoint :
    ∀ (s t : PTree) (keys : List String),
      sameShape s t = true → disjointKeys s keys = true →
      nodupKeys s = true →
      copyParams s t keys = some t
  | PTree.leaf _, t, keys, _, _, _ => by
      simp [copyParams]
  | PTree.node cs, PTree.leaf _, keys, hs, _, _ => by
      simp [sameShape] at hs
  | PTree.node cs, PTree.node ct, keys, hs, hd, hn => by
      simp only [sameShape] at hs
      simp only [disjointKeys] at hd
      simp only [nodupKeys, Bool.and_eq_true, decide_eq_true_eq] at hn
      have hcc := copyChildren_of_disjoint cs ct (PTree.node ct) keys hs hd
        hn.2 hn.1 (fun k v' hlk => by simpa [PTree.find?] using hlk)
      simp only [copyParams, hcc]

/-- Generalized loop invariant for `copyChildren` under disjointness: `t` is
the full target node, which agrees with the remaining positional target
children `ct` on every key they still hold. -/
lemma copyChildren_of_disjoint :
    ∀ (cs ct : List (String × PTree)) (t : PTree) (keys : List String),
      sameShapeChildren cs ct = true →
      disjointKeysChildren cs keys = true →
      nodupKeysChildren cs = true →
      (cs.map Prod.fst).Nodup →
      (∀ k v', ct.lookup k = some v' → t.find? k = some v') →
      copyChildren cs t keys = some ct
  | [], [], t, keys, _, _, _, _, _ => by simp [copyChildren]
  | [], _ :: _, t, keys, hs, _, _, _, _ => by simp [sameShapeChildren] at hs
  | _ :: _, [], t, keys, hs, _, _, _, _ => by simp [sameShapeChildren] at hs
  | (k, v) :: rest, (k2, v2) :: rest', t, keys, hs, hd, hn, hnd, hagree => by
      simp only [sameShapeChildren, Bool.and_eq_true, decide_eq_true_eq] at hs
      obtain ⟨⟨hkk, hsv⟩, hsrest⟩ := hs
      subst hkk
      simp only [disjointKeysChildren, Bool.and_eq_true, Bool.not_eq_true',
        decide_eq_false_iff_not] at hd
      obtain ⟨⟨hknotin, hdv⟩, hdrest⟩ := hd
      simp only [nodupKeysChildren, Bool.and_eq_true] at hn
      obtain ⟨hnv, hnrest⟩ := hn
      have hk_not_rest : k ∉ rest.map Prod.fst := by
        simp only [List.map_cons, List.nodup_cons] at hnd
        exact hnd.1
      have hnd_rest : (rest.map Prod.fst).Nodup := by
        simp only [List.map_cons, List.nodup_cons] at hnd
        exact hnd.2
      have htk : t.find? k = some v2 := hagree k v2 (lookup_cons_eq k rest')
      cases t with
      | leaf _ => simp [PTree.find?] at htk
      | node tcs =>
        have htk' : tcs.lookup k = some v2 := by simpa [PTree.find?] using htk
        have hrest : copyChildren rest (PTree.node tcs) keys = some rest' := by
          apply copyChildren_of_disjoint rest rest' (PTree.node tcs) keys
            hsrest hdrest hnrest hnd_rest
          intro k'' v'' hlk
          by_cases hkk2 : k'' = k
          · subst hkk2
            have : rest'.lookup k'' = none := by
              apply lookup_eq_none_of_not_mem
              rw [← sameShapeChildren_keys rest rest' hsrest]
              exact hk_not_rest
            rw [this] at hlk
            exact Option.noConfusion hlk
          · exact hagree k'' v'' (by rw [lookup_cons_ne hkk2]; exact hlk)
        simp only [copyChildren, if_neg hknotin, htk', hrest,
          copyParams_of_disjoint v v2 keys hsv hdv hnv]

end

lemma lookup_append_left {l1 l2 : List (String × PTree)} {k : String}
    {v : PTree} (h : l1.lookup k = some v) :
    (l1 ++ l2).lookup k = some v := by
  induction l1 with
  | nil => simp [List.lookup] at h
  | cons p rest ih =>
    rcases p with ⟨k1, v1⟩
    by_cases hk : k = k1
    · subst hk
      rw [lookup_cons_eq] at h
      rw [List.cons_append, lookup_cons_eq]
      exact h
    · rw [lookup_cons_ne hk] at h
      rw [List.cons_append, lookup_cons_ne hk]
      exact ih h

/-- Each key handled by the `for k in keys` loop of `interpolate_weights`
ends up in the output association list with its computed value. -/
lemma mapM_entry_lookup (F : String → Option PTree) :
    ∀ (ks : List String) (out : List (String × PTree)),
      ks.mapM (fun k => do
        let x ← F k
        pure (k, x)) = some out →
      ∀ k ∈ ks, ∃ x, F k = some x ∧ out.lookup k = some x
  | [], out, h, k, hk => absurd hk (List.not_mem_nil k)
  | k' :: ks, out, h, k, hk => by
      rw [List.mapM_cons] at h
      cases hx : F k' with
      | none => rw [hx] at h; simp at h
      | some x =>
        rw [hx] at h
        cases hys : ks.mapM (fun k => do
            let x ← F k
            pure (k, x)) with
        | none => rw [hys] at h; simp at h
        | some ys =>
          rw [hys] at h
          simp only [Option.pure_def, Option.bind_eq_bind',
            Option.some_bind', Option.some.injEq] at h
          subst h
          by_cases hkk : k = k'
          · subst hkk
            exact ⟨x, hx, lookup_cons_eq k ys⟩
          · rcases List.mem_cons.mp hk with he | hm
            · exact absurd he hkk
            · obtain ⟨x2, hx2, hl2⟩ := mapM_entry_lookup F ks ys hys k hm
              exact ⟨x2, hx2, by rw [lookup_cons_ne hkk]; exact hl2⟩

/-- Deconstruction of a successful `interpolate_weights` call with the
default `strip_params_layer = true`. -/
lemma interpolate_weights_strip_shape (old_params new_params : PTree)
    (keys : List String) (ow nw : ℚ) (r : PTree)
    (h : interpolate_weights old_params new_params (some keys) ow nw true
      = some r) :
    ∃ cs new' combined,
      old_params.find? "params" = some (PTree.node cs) ∧
      new_params.find? "params" = some new' ∧
      keys.mapM (fun k => do
        let x ← interpolateEntry cs new' (fun o n => o * ow + n * nw) k
        pure (k, x)) = some combined ∧
      r = PTree.node [("params", PTree.node (combined ++
        cs.filter (fun p => !(keys.contains p.1))))] := by
  simp only [interpolate_weights, if_true] at h
  cases hold : old_params.find? "params" with
  | none => rw [hold] at h; simp at h
  | some old' =>
    rw [hold] at h
    rw [Option.bind_eq_bind', Option.some_bind'] at h
    cases hnew : new_params.find? "params" with
    | none => rw [hnew] at h; simp at h
    | some new' =>
      rw [hnew] at h
      rw [Option.bind_eq_bind', Option.some_bind'] at h
      cases old' with
      | leaf q => simp at h
      | node cs =>
        dsimp only [Option.getD] at h
        cases hcomb : keys.mapM (fun k => do
            let x ← interpolateEntry cs new'
              (fun o n => o * ow + n * nw) k
            pure (k, x)) with
        | none => rw [hcomb] at h; simp at h
        | some combined =>
          rw [hcomb] at h
          rw [Option.bind_eq_bind', Option.some_bind'] at h
          simp only [Option.pure_def, Option.some.injEq] at h
          exact ⟨cs, new', combined, rfl, rfl, hcomb, h.symm⟩

lemma findGroup_wrap (P : PTree) (k : String) :
    findGroup (PTree.node [("params", P)]) k = P.find? k := by
  simp only [findGroup, PTree.find?, lookup_cons_eq, Option.bind_eq_bind',
    Option.some_bind']

/-! ## Losses, priorities (source lines 73-76 and 1323-1333) -/

/-- `softmax_cross_entropy_loss_with_logits(labels, logits)`:
`-sum(labels * log_softmax(logits))`, with
`log_softmax(x)_i = x_i - log(sum_j exp(x_j))`. -/
noncomputable def softmax_cross_entropy_loss_with_logits
    {n : ℕ} (labels logits : Fin n → ℝ) : ℝ :=
  -∑ i, labels i * (logits i - Real.log (∑ j, Real.exp (logits j)))

/-- `priorities = np.sqrt(dqn_loss + 1e-10)` from `_training_step_update`. -/
noncomputable def computePriorities (dqnLoss : List ℝ) : List ℝ :=
  dqnLoss.map (fun l => Real.sqrt (l + 1e-10))

/-- The value loss feeding the priorities is non-negative whenever the target
labels are (they are a probability distribution by C2). -/
lemma softmax_cross_entropy_nonneg {n : ℕ} (labels logits : Fin n → ℝ)
    (h : ∀ i, 0 ≤ labels i) :
    0 ≤ softmax_cross_entropy_loss_with_logits labels logits := by
  rw [softmax_cross_entropy_loss_with_logits, neg_nonneg]
  apply Finset.sum_nonpos
  intro i _
  apply mul_nonpos_of_nonneg_of_nonpos (h i)
  rw [sub_nonpos]
  calc logits i = Real.log (Real.exp (logits i)) := (Real.log_exp _).symm
    _ ≤ Real.log (∑ j, Real.exp (logits j)) := by
        apply Real.log_le_log (Real.exp_pos _)
        exact Finset.single_le_sum
          (fun j _ => le_of_lt (Real.exp_pos (logits j)))
          (Finset.mem_univ i)

/-! ## `exponential_decay_scheduler` (source lines 281-324) -/

/-- `np.clip` over the reals. -/
noncomputable def clipR (x lo hi : ℝ) : ℝ := min (max x lo) hi

/-- `exponential_decay_scheduler(decay_period, warmup_steps, initial_value,
final_value, reverse)`, as a function of `step`.  With `reverse` the
endpoints are replaced by `1 - value` up front; the `decay_period == 0`
branch returns those substituted values directly, while only the general
branch reflects the result back as `1 - exp(...)`. -/
noncomputable def exponential_decay_scheduler (decay_period warmup_steps
    initial_value final_value : ℝ) (reverse : Bool) : ℝ → ℝ :=
  let i' := if reverse then 1 - initial_value else initial_value
  let f' := if reverse then 1 - final_value else final_value
  let start := Real.log i'
  let stop := Real.log f'
  if decay_period = 0 then
    fun x => if x < warmup_steps then i' else f'
  else
    fun step =>
      let steps_left := decay_period + warmup_steps - step
      let bonus_frac := steps_left / decay_period
      let bonus := clipR bonus_frac 0 1
      let nv := Real.exp (bonus * (start - stop) + stop)
      if reverse then 1 - nv else nv

lemma clipR_of_one_le {x : ℝ} (h : 1 ≤ x) : clipR x 0 1 = 1 := by
  simp only [clipR]
  rw [max_eq_left (by linarith), min_eq_right h]

lemma clipR_of_nonpos {x : ℝ} (h : x ≤ 0) : clipR x 0 1 = 0 := by
  simp only [clipR]
  rw [max_eq_right h, min_eq_left (by norm_num : (0:ℝ) ≤ 1)]

/-! ## `BBFAgent.reset_weights` (source lines 1198-1239) -/

/-- The reset-relevant portion of the agent's mutable state.  Counters are
Python integers, modelled as `ℤ` (`no_resets_after` defaults to `-1`). -/
structure AgentResetState where
  training_steps : ℤ
  reset_every : ℤ
  next_reset : ℤ
  no_resets_after : ℤ
  reset_offset : ℤ
  cumulative_resets : ℤ
  cycle_grad_steps : ℤ
  online_params : PTree
  target_network_params : PTree
  optimizer_state : PTree

/-- `BBFAgent.reset_weights`.  The fresh draws `freshOnline`/`freshTarget`
stand for the two `network_def.init` calls inside `jit_reset` and
`freshOptim` for `optimizer.init(online_params)` (network and optimizer are
external modules).  Mirroring the source: `cumulative_resets` is incremented
and `next_reset` recomputed *before* the recovery-budget check; when
`next_reset > no_resets_after + reset_offset` the method returns right away
(skip), otherwise `jit_reset` rebuilds online parameters, optimizer state,
and — when `reset_target` — target parameters, and `cycle_grad_steps` is
zeroed. -/
def reset_weights (freshOnline freshTarget freshOptim : PTree)
    (reset_target : Bool) (shrink_perturb_keys : List String)
    (shrink_factor perturb_factor : ℚ) (keys_to_copy : List String)
    (s : AgentResetState) : Option AgentResetState :=
  let s1 := { s with
    cumulative_resets := s.cumulative_resets + 1
    next_reset := s.reset_every + s.training_steps }
  if s.no_resets_after + s.reset_offset < s1.next_reset then
    some s1
  else do
    let newOnline ← jit_reset_online s.online_params freshOnline
      shrink_perturb_keys shrink_factor perturb_factor keys_to_copy
    let newOptim ← copyParams s.optimizer_state freshOptim keys_to_copy
    let newTarget ←
      if reset_target then do
        let t2 ← if shrink_perturb_keys ≠ [] then
            interpolate_weights s.target_network_params freshTarget
              (some shrink_perturb_keys) shrink_factor perturb_factor true
          else some s.target_network_params
        copyParams t2 freshTarget keys_to_copy
      else some s.target_network_params
    some { s1 with
      online_params := newOnline
      target_network_params := newTarget
      optimizer_state := newOptim
      cycle_grad_steps := 0 }

/-! ## Action selection (source lines 331-377 and 1489-1522) -/

/-- The external interface action selection consumes: JAX PRNG operations,
input preprocessing, the network's `get_policy` head — which returns logits
and a categorically sampled action — and `jax.random.randint`.  `Bn` is the
number of parallel environments, `m + 1` the number of actions. -/
structure SelectEnv (State Rng : Type) (Bn m : ℕ) where
  split : Rng → Rng × Rng
  splitMany : Rng → Fin Bn → Rng
  processInputs : (Fin Bn → State) → Rng → (Fin Bn → State)
  getPolicy : State → Rng → (Fin (m + 1) → ℝ) × Fin (m + 1)
  randint : Rng → Fin Bn → Fin (m + 1)

/-- `jnp.argmax` over a logit vector: index of the maximum, first occurrence
on ties. -/
noncomputable def argmaxFin {m : ℕ} (f : Fin (m + 1) → ℝ) : Fin (m + 1) :=
  (List.finRange (m + 1)).foldl
    (fun best i => if f best < f i then i else best) 0

/-- `jax.nn.softmax`. -/
noncomputable def softmaxFin {m : ℕ} (f : Fin (m + 1) → ℝ) :
    Fin (m + 1) → ℝ :=
  fun i => Real.exp (f i) / ∑ j, Real.exp (f j)

/-- Module-level `select_action` (source lines 331-360): split the rng,
preprocess the observations, compute per-element policy logits and
categorical samples via `get_policy`, and return the arg-max actions when
`eval_mode` and the sampled actions otherwise, together with the advanced
rng and `softmax(logits)`. -/
noncomputable def select_action {State Rng : Type} {Bn m : ℕ}
    (env : SelectEnv State Rng Bn m) (state : Fin Bn → State) (rng : Rng)
    (eval_mode : Bool) :
    Rng × (Fin Bn → Fin (m + 1)) × (Fin Bn → Fin (m + 1) → ℝ) :=
  let p1 := env.split rng
  let state2 := env.processInputs state p1.2
  let p2 := env.split p1.2
  let keys := env.splitMany p2.2
  let results := fun b => env.getPolicy (state2 b) (keys b)
  let new_actions := fun b =>
    if eval_mode then argmaxFin (results b).1 else (results b).2
  (p2.1, new_actions, fun b => softmaxFin (results b).1)

/-- `BBFAgent.select_action` (source lines 1489-1522): in training mode
before the replay-history threshold, actions come from
`jax.random.randint`; otherwise the module-level `select_action` is invoked
with the `eval_mode` argument hard-coded to `False` in the source.
`min_replay_history` is a float after division by the environment count, so
the threshold comparison is rational. -/
noncomputable def BBFAgent.select_action {State Rng : Type} {Bn m : ℕ}
    (env : SelectEnv State Rng Bn m)
    (training_steps min_replay_history : ℚ) (eval_mode : Bool) (rng : Rng)
    (state : Fin Bn → State) : Rng × (Fin Bn → Fin (m + 1)) :=
  if ¬eval_mode ∧ training_steps < min_replay_history then
    let p := env.split rng
    (p.1, env.randint p.2)
  else
    let r := SprAgent.select_action env state rng false
    (r.1, r.2.1)

/-! ## The SPR loss inside `loss_fn` (source lines 552-572) -/

/-- Index into the `reshape(..., 2, 2048)` of a flat 4096-dimensional
latent: half `c`, coordinate `j`. -/
def splitIdx (c : Fin 2) (j : Fin 2048) : Fin 4096 :=
  ⟨c.1 * 2048 + j.1, by have hc := c.2; have hj := j.2; omega⟩

/-- `x / jnp.linalg.norm(x, 2, -1, keepdims=True)`. -/
noncomputable def l2normalize {k : ℕ} (v : Fin k → ℝ) : Fin k → ℝ :=
  fun j => v j / Real.sqrt (∑ j', (v j') ^ 2)

/-- Squared distance of the half-normalized latents at one `(t, b)`: the
latent is reshaped to `(2, 2048)`, each half L2-normalized along the last
axis, and `jnp.power(spr_predictions - spr_targets, 2).sum((-1, -2))`
taken. -/
noncomputable def halfSqDist (p q : Fin 4096 → ℝ) : ℝ :=
  ∑ c : Fin 2, ∑ j : Fin 2048,
    (l2normalize (fun j' => p (splitIdx c j')) j
      - l2normalize (fun j' => q (splitIdx c j')) j) ^ 2

/-- The SPR loss of `loss_fn` as the scalar `SPRLoss` diagnostic
(`jnp.mean` over the batch): predictions `(B, T, 4096)` are transposed to
`(T, B, 4096)` and reshaped to `(T, B, 2, 2048)` with each half normalized;
likewise the already-transposed targets; the squared distance summed over
the `(2, 2048)` axes is multiplied elementwise by the transposed
`same_trajectory` mask, averaged over the time axis (`.mean(0)`), scaled by
`.5`, and averaged over the batch.  Transposition and reshaping are folded
into the indexing. -/
noncomputable def sprLossCode (B T : ℕ)
    (spr_predictions : Fin B → Fin T → Fin 4096 → ℝ)
    (spr_targets : Fin T → Fin B → Fin 4096 → ℝ)
    (same_traj_mask : Fin B → Fin T → ℝ) : ℝ :=
  (∑ b, (∑ t, halfSqDist (spr_predictions b t) (spr_targets t b)
      * same_traj_mask b t) / (T : ℝ) * (1/2)) / (B : ℝ)

/-- Squared distance of the fully normalized 4096-dimensional latents. -/
noncomputable def fullSqDist (p q : Fin 4096 → ℝ) : ℝ :=
  ∑ j, (l2normalize p j - l2normalize q j) ^ 2

/-- The SPR loss as the claim words it (written from the spec, for
comparison with `sprLossCode`): L2-normalize the full predicted and target
latent of each time step, take the squared Euclidean distance per step,
zero out steps whose `same_trajectory` flag is false, average over the
*valid* time steps, scale by one half, and average over the batch. -/
noncomputable def sprLossClaim (B T : ℕ)
    (spr_predictions : Fin B → Fin T → Fin 4096 → ℝ)
    (spr_targets : Fin T → Fin B → Fin 4096 → ℝ)
    (same_traj_mask : Fin B → Fin T → Bool) : ℝ :=
  (∑ b, (∑ t, if same_traj_mask b t then
        fullSqDist (spr_predictions b t) (spr_targets t b) else 0)
      / ((Finset.univ.filter (fun t => same_traj_mask b t)).card : ℝ)
      * (1/2)) / (B : ℝ)

lemma l2normalize_const_one (k : ℕ) (j : Fin k) :
    l2normalize (fun _ : Fin k => (1 : ℝ)) j = 1 / Real.sqrt k := by
  simp [l2normalize]

lemma l2normalize_const_negone (k : ℕ) (j : Fin k) :
    l2normalize (fun _ : Fin k => (-1 : ℝ)) j = -(1 / Real.sqrt k) := by
  simp [l2normalize, neg_div]

lemma normalized_diff_sq (k : ℕ) (hk : 0 < k) (j : Fin k) :
    (l2normalize (fun _ : Fin k => (1 : ℝ)) j
      - l2normalize (fun _ : Fin k => (-1 : ℝ)) j) ^ 2 = 4 / k := by
  rw [l2normalize_const_one, l2normalize_const_negone, sub_neg_eq_add,
    show (1 / Real.sqrt k + 1 / Real.sqrt k) = 2 / Real.sqrt k by ring,
    div_pow, Real.sq_sqrt (by positivity : (0:ℝ) ≤ (k : ℝ))]
  norm_num

lemma halfSqDist_ones :
    halfSqDist (fun _ => (1 : ℝ)) (fun _ => (-1 : ℝ)) = 8 := by
  have key := fun (j : Fin 2048) => normalized_diff_sq 2048 (by norm_num) j
  simp only [halfSqDist]
  calc (∑ c : Fin 2, ∑ j : Fin 2048,
        (l2normalize (fun _ : Fin 2048 => (1:ℝ)) j
          - l2normalize (fun _ : Fin 2048 => (-1:ℝ)) j) ^ 2)
      = ∑ c : Fin 2, ∑ j : Fin 2048, (4 / 2048 : ℝ) :=
        Finset.sum_congr rfl (fun c _ =>
          Finset.sum_congr rfl (fun j _ => by
            rw [key j]
            norm_num))
    _ = 8 := by
        rw [Finset.sum_const, Finset.sum_const, Finset.card_univ,
          Fintype.card_fin, nsmul_eq_mul, Finset.card_univ, Fintype.card_fin,
          nsmul_eq_mul]
        norm_num

lemma fullSqDist_ones :
    fullSqDist (fun _ => (1 : ℝ)) (fun _ => (-1 : ℝ)) = 4 := by
  have key := fun (j : Fin 4096) => normalized_diff_sq 4096 (by norm_num) j
  simp only [fullSqDist]
  calc (∑ j : Fin 4096,
        (l2normalize (fun _ : Fin 4096 => (1:ℝ)) j
          - l2normalize (fun _ : Fin 4096 => (-1:ℝ)) j) ^ 2)
      = ∑ j : Fin 4096, (4 / 4096 : ℝ) :=
        Finset.sum_congr rfl (fun j _ => by
          rw [key j]
          norm_num)
    _ = 4 := by
        rw [Finset.sum_const, Finset.card_univ, Fintype.card_fin,
          nsmul_eq_mul]
        norm_num

end SprAgent

open SprAgent

/-- C3 counterexample: a one-step, one-element batch with all-ones predicted
latents and all-minus-ones target latents, valid mask.  The training step
computes 4 (it normalizes each 2048-half separately), the claim's formula
computes 2 (it normalizes the full 4096 vector); the two also disagree on
the denominator whenever some step is masked out, since the code divides by
all `T` steps and the claim by the number of valid steps. -/
theorem C3_spr_loss_counterexample :
    sprLossCode 1 1 (fun _ _ _ => 1) (fun _ _ _ => -1) (fun _ _ => 1) = 4 ∧
    sprLossClaim 1 1 (fun _ _ _ => 1) (fun _ _ _ => -1) (fun _ _ => true)
      = 2 ∧
    (4 : ℝ) ≠ 2 := by
  refine ⟨?_, ?_, by norm_num⟩
  · simp only [sprLossCode]
    rw [Fin.sum_univ_one, Fin.sum_univ_one]
    rw [show halfSqDist (fun _ => (1:ℝ)) (fun _ => (-1:ℝ)) = 8 from
      halfSqDist_ones]
    norm_num
  · simp only [sprLossClaim]
    rw [Fin.sum_univ_one, Fin.sum_univ_one]
    rw [show fullSqDist (fun _ => (1:ℝ)) (fun _ => (-1:ℝ)) = 4 from
      fullSqDist_ones]
    norm_num

/-- C3 amended: the SPR loss computed inside the training step equals: split
each latent into its two 2048-dimensional halves, L2-normalize each half
separately onto the unit hypersphere, sum the squared Euclidean differences
over both halves, multiply by the step's `same_trajectory` value, sum over
time and batch, divide by `B · T` (every time step counts in the
denominator, masked or not), and scale by one half. -/
theorem C3_spr_loss_amended (B T : ℕ) (hB : 0 < B) (hT : 0 < T)
    (pred : Fin B → Fin T → Fin 4096 → ℝ)
    (targ : Fin T → Fin B → Fin 4096 → ℝ)
    (mask : Fin B → Fin T → ℝ) :
    sprLossCode B T pred targ mask
      = (1/2) * (∑ b, ∑ t, halfSqDist (pred b t) (targ t b) * mask b t)
          / ((B : ℝ) * (T : ℝ)) := by
  have hT0 : (T : ℝ) ≠ 0 := Nat.cast_ne_zero.mpr (by omega)
  have hB0 : (B : ℝ) ≠ 0 := Nat.cast_ne_zero.mpr (by omega)
  rw [sprLossCode]
  rw [Finset.sum_congr rfl (fun b _ =>
    show (∑ t, halfSqDist (pred b t) (targ t b) * mask b t) / (T : ℝ)
        * (1/2)
      = (∑ t, halfSqDist (pred b t) (targ t b) * mask b t)
        * ((1/2) / (T : ℝ)) from by ring)]
  rw [← Finset.sum_mul, ← mul_div_assoc, div_div,
    mul_comm (∑ b, ∑ t, halfSqDist (pred b t) (targ t b) * mask b t)
      ((1:ℝ)/2),
    mul_comm (T : ℝ) (B : ℝ)]

/-- Witness for the amended C3 at the counterexample's concrete input. -/
theorem C3_spr_loss_amended_witness :
    (0 < 1 ∧ 0 < 1) ∧
    sprLossCode 1 1 (fun _ _ _ => 1) (fun _ _ _ => -1) (fun _ _ => 1)
      = (1/2) * (∑ b : Fin 1, ∑ t : Fin 1,
          halfSqDist ((fun (_ : Fin 1) (_ : Fin 1) (_ : Fin 4096) => (1:ℝ)) b t)
            ((fun (_ : Fin 1) (_ : Fin 1) (_ : Fin 4096) => (-1:ℝ)) t b)
          * (1 : ℝ)) / ((1 : ℝ) * (1 : ℝ)) :=
  ⟨⟨Nat.one_pos, Nat.one_pos⟩,
    by
      have h := C3_spr_loss_amended 1 1 Nat.one_pos Nat.one_pos
        (fun _ _ _ => 1) (fun _ _ _ => -1) (fun _ _ => 1)
      simpa using h⟩

/-- C5 counterexample: a concrete evaluation-mode call past the threshold in
which the policy head's logits have their maximum at action 1 but its
categorical sample is action 0; the agent returns the sample, not the
arg-max, because the source passes `eval_mode=False` to the sampler. -/
theorem C5_select_action_counterexample :
    ((@BBFAgent.select_action Unit Unit 1 1
        { split := fun _ => ((), ()),
          splitMany := fun _ _ => (),
          processInputs := fun s _ => s,
          getPolicy := fun _ _ => (fun i => if i = 0 then 0 else 1, 0),
          randint := fun _ _ => 0 }
        100 50 true () (fun _ => ())).2 0 = 0) ∧
    argmaxFin (fun i : Fin 2 => if i = 0 then (0 : ℝ) else 1) = 1 ∧
    (0 : Fin 2) ≠ 1 := by
  refine ⟨?_, ?_, by decide⟩
  · simp only [BBFAgent.select_action]
    rw [if_neg (by simp)]
    simp [select_action]
  · simp only [argmaxFin, List.finRange]
    norm_num [List.foldl]

/-- C5 amended: in training mode below the replay-history threshold the
action is the output of the uniform `randint` primitive; in every other
case — evaluation mode included — the action is the policy head's
categorical sample, and the arg-max branch is never taken because the agent
passes `eval_mode=False` to the sampler. -/
theorem C5_select_action_amended {State Rng : Type} {Bn m : ℕ}
    (env : SelectEnv State Rng Bn m)
    (training_steps min_replay_history : ℚ) (eval_mode : Bool) (rng : Rng)
    (state : Fin Bn → State) (b : Fin Bn) :
    ((¬eval_mode = true ∧ training_steps < min_replay_history) →
      (BBFAgent.select_action env training_steps min_replay_history
        eval_mode rng state).2 b = env.randint (env.split rng).2 b) ∧
    (¬(¬eval_mode = true ∧ training_steps < min_replay_history) →
      (BBFAgent.select_action env training_steps min_replay_history
          eval_mode rng state).2 b
        = (env.getPolicy
            (env.processInputs state (env.split rng).2 b)
            (env.splitMany (env.split (env.split rng).2).2 b)).2) := by
  constructor
  · intro h
    simp only [BBFAgent.select_action, if_pos h]
  · intro h
    simp only [BBFAgent.select_action, if_neg h, select_action]
    simp

/-- Witness for the amended C5: the evaluation-mode call of the
counterexample environment indeed returns the categorical sample. -/
theorem C5_select_action_amended_witness :
    (¬(¬true = true ∧ (100 : ℚ) < 50)) ∧
    (@BBFAgent.select_action Unit Unit 1 1
        { split := fun _ => ((), ()),
          splitMany := fun _ _ => (),
          processInputs := fun s _ => s,
          getPolicy := fun _ _ => (fun i => if i = 0 then 0 else 1, 0),
          randint := fun _ _ => 0 }
        100 50 true () (fun _ => ())).2 0
      = (0 : Fin 2) :=
  ⟨by simp,
    (C5_select_action_amended
      { split := fun _ => ((), ()),
        splitMany := fun _ _ => (),
        processInputs := fun s _ => s,
        getPolicy := fun _ _ => (fun i => if i = 0 then 0 else 1, 0),
        randint := fun _ _ => 0 }
      100 50 true () (fun _ => ()) 0).2 (by simp)⟩

/-- C1 counterexample.  Two explicit agent states satisfying the claim's
trigger (`reset_every > 0`, `training_steps > next_reset`) and its
"insufficient budget" condition
(`training_steps + reset_every + reset_offset > no_resets_after + reset_offset`):
in the first (`reset_offset = 10`) the code nevertheless *executes* the
reset — `cycle_grad_steps` is zeroed and parameters are rebuilt — because
the code's skip test compares against `no_resets_after + reset_offset`; in
the second (`reset_offset = 0`) the code does skip, but `cumulative_resets`
is incremented and `next_reset` recomputed, so no reset counter keeps its
pre-call value. -/
theorem C1_reset_skip_counterexample :
    (((0:ℤ) < 5 ∧ (9:ℤ) < 10 ∧ (12:ℤ) + 10 < 10 + 5 + 10) ∧
      reset_weights
        (PTree.node [("params", PTree.node
          [("enc", PTree.leaf 10), ("head", PTree.leaf 20)])])
        (PTree.node [("params", PTree.node
          [("enc", PTree.leaf 30), ("head", PTree.leaf 40)])])
        (PTree.node [("params", PTree.node
          [("enc", PTree.leaf 50), ("head", PTree.leaf 60)])])
        true [] (8/10) (2/10) ["enc"]
        { training_steps := 10, reset_every := 5, next_reset := 9,
          no_resets_after := 12, reset_offset := 10, cumulative_resets := 0,
          cycle_grad_steps := 3,
          online_params := PTree.node [("params", PTree.node
            [("enc", PTree.leaf 1), ("head", PTree.leaf 2)])],
          target_network_params := PTree.node [("params", PTree.node
            [("enc", PTree.leaf 3), ("head", PTree.leaf 4)])],
          optimizer_state := PTree.node [("params", PTree.node
            [("enc", PTree.leaf 5), ("head", PTree.leaf 6)])] }
      = some
        { training_steps := 10, reset_every := 5, next_reset := 15,
          no_resets_after := 12, reset_offset := 10, cumulative_resets := 1,
          cycle_grad_steps := 0,
          online_params := PTree.node [("params", PTree.node
            [("enc", PTree.leaf 1), ("head", PTree.leaf 20)])],
          target_network_params := PTree.node [("params", PTree.node
            [("enc", PTree.leaf 3), ("head", PTree.leaf 40)])],
          optimizer_state := PTree.node [("params", PTree.node
            [("enc", PTree.leaf 5), ("head", PTree.leaf 60)])] } ∧
      (0 : ℤ) ≠ 3) ∧
    (((0:ℤ) < 5 ∧ (9:ℤ) < 10 ∧ (12:ℤ) + 0 < 10 + 5 + 0) ∧
      reset_weights (PTree.leaf 0) (PTree.leaf 0) (PTree.leaf 0)
        true [] (8/10) (2/10) ["enc"]
        { training_steps := 10, reset_every := 5, next_reset := 9,
          no_resets_after := 12, reset_offset := 0, cumulative_resets := 0,
          cycle_grad_steps := 3, online_params := PTree.leaf 0,
          target_network_params := PTree.leaf 0,
          optimizer_state := PTree.leaf 0 }
      = some
        { training_steps := 10, reset_every := 5, next_reset := 15,
          no_resets_after := 12, reset_offset := 0, cumulative_resets := 1,
          cycle_grad_steps := 3, online_params := PTree.leaf 0,
          target_network_params := PTree.leaf 0,
          optimizer_state := PTree.leaf 0 } ∧
      ((1 : ℤ) ≠ 0 ∧ (15 : ℤ) ≠ 9)) :=
  ⟨⟨⟨by decide, by decide, by decide⟩, rfl, by decide⟩,
    ⟨⟨by decide, by decide, by decide⟩, rfl, by decide, by decide⟩⟩

/-- C1 amended: when `training_steps + reset_every >
no_resets_after + reset_offset` (the code's actual skip condition, which
differs from the claim's by `reset_offset` on the left), `reset_weights`
leaves the online parameters, target parameters, optimizer state and
`cycle_grad_steps` unchanged, but it *does* advance the reset counters:
`cumulative_resets` is incremented and `next_reset` becomes
`training_steps + reset_every`. -/
theorem C1_reset_skip_amended (freshOnline freshTarget freshOptim : PTree)
    (reset_target : Bool) (spk : List String) (sf pf : ℚ)
    (ktc : List String) (s : AgentResetState)
    (hskip : s.no_resets_after + s.reset_offset
      < s.reset_every + s.training_steps) :
    reset_weights freshOnline freshTarget freshOptim reset_target
        spk sf pf ktc s
      = some { s with
          cumulative_resets := s.cumulative_resets + 1
          next_reset := s.reset_every + s.training_steps } := by
  simp only [reset_weights]
  rw [if_pos hskip]

/-- Witness for the amended C1 at a concrete skipped reset. -/
theorem C1_reset_skip_amended_witness :
    ((12:ℤ) + 0 < 5 + 10) ∧
    reset_weights (PTree.leaf 0) (PTree.leaf 0) (PTree.leaf 0)
        true [] (8/10) (2/10) ["enc"]
        { training_steps := 10, reset_every := 5, next_reset := 9,
          no_resets_after := 12, reset_offset := 0, cumulative_resets := 7,
          cycle_grad_steps := 3, online_params := PTree.leaf 0,
          target_network_params := PTree.leaf 0,
          optimizer_state := PTree.leaf 0 }
      = some
        { training_steps := 10, reset_every := 5, next_reset := 5 + 10,
          no_resets_after := 12, reset_offset := 0, cumulative_resets := 7 + 1,
          cycle_grad_steps := 3, online_params := PTree.leaf 0,
          target_network_params := PTree.leaf 0,
          optimizer_state := PTree.leaf 0 } :=
  ⟨by decide,
    C1_reset_skip_amended (PTree.leaf 0) (PTree.leaf 0) (PTree.leaf 0)
      true [] (8/10) (2/10) ["enc"]
      { training_steps := 10, reset_every := 5, next_reset := 9,
        no_resets_after := 12, reset_offset := 0, cumulative_resets := 7,
        cycle_grad_steps := 3, online_params := PTree.leaf 0,
        target_network_params := PTree.leaf 0,
        optimizer_state := PTree.leaf 0 }
      (by decide)⟩

/-- C9: priorities written back to the replay store are strictly positive,
including for transitions whose value loss is exactly 0, because of the
`1e-10` floor added before the square root. -/
theorem C9_priorities_positive (dqnLoss : List ℝ)
    (h : ∀ l ∈ dqnLoss, 0 ≤ l) :
    ∀ p ∈ computePriorities dqnLoss, 0 < p := by
  intro p hp
  rcases List.mem_map.mp hp with ⟨l, hl, rfl⟩
  apply Real.sqrt_pos.mpr
  have := h l hl
  norm_num
  linarith

/-- Witness for C9 at a batch whose value loss is exactly 0. -/
theorem C9_priorities_positive_witness :
    (∀ l ∈ [(0 : ℝ)], 0 ≤ l) ∧ ∀ p ∈ computePriorities [(0 : ℝ)], 0 < p :=
  ⟨by norm_num, C9_priorities_positive [(0 : ℝ)] (by norm_num)⟩

/-- C4 counterexample: with `decay_period = 0` the returned function uses a
strict `step < warmup_steps` test, so at `step = warmup_steps` — which the
claim covers with "for every step ≤ warmup_steps it returns initial_value" —
it already returns `final_value`. -/
theorem C4_scheduler_counterexample :
    exponential_decay_scheduler 0 5 (1/5) (1/2) false 5 = 1/2 ∧
      (1/2 : ℝ) ≠ 1/5 := by
  constructor
  · simp only [exponential_decay_scheduler]
    norm_num
  · norm_num

/-- C4 amended: when `decay_period = 0` the scheduler is a step function at
`warmup_steps` switching between the *reverse-substituted* endpoints
(`1 - initial_value`/`1 - final_value` when `reverse`), with the switch
happening already at `step = warmup_steps`; when `decay_period > 0` it
returns `initial_value` for `step ≤ warmup_steps` and `final_value` for
`step ≥ warmup_steps + decay_period`, provided both substituted endpoints
are strictly positive (otherwise the code's `log(0)` is not finite). -/
theorem C4_scheduler_amended (decay_period warmup_steps initial_value
    final_value : ℝ) (reverse : Bool) (step : ℝ)
    (hi : 0 < (if reverse then 1 - initial_value else initial_value))
    (hf : 0 < (if reverse then 1 - final_value else final_value)) :
    (decay_period = 0 →
      (step < warmup_steps →
        exponential_decay_scheduler decay_period warmup_steps initial_value
            final_value reverse step
          = (if reverse then 1 - initial_value else initial_value)) ∧
      (warmup_steps ≤ step →
        exponential_decay_scheduler decay_period warmup_steps initial_value
            final_value reverse step
          = (if reverse then 1 - final_value else final_value))) ∧
    (0 < decay_period → step ≤ warmup_steps →
      exponential_decay_scheduler decay_period warmup_steps initial_value
          final_value reverse step = initial_value) ∧
    (0 < decay_period → warmup_steps + decay_period ≤ step →
      exponential_decay_scheduler decay_period warmup_steps initial_value
          final_value reverse step = final_value) := by
  refine ⟨?_, ?_, ?_⟩
  · intro hdp
    constructor
    · intro hlt
      simp only [exponential_decay_scheduler, if_pos hdp, if_pos hlt]
    · intro hge
      simp only [exponential_decay_scheduler, if_pos hdp,
        if_neg (not_lt.mpr hge)]
  · intro hdp hstep
    have hdp0 : decay_period ≠ 0 := ne_of_gt hdp
    simp only [exponential_decay_scheduler, if_neg hdp0]
    have hfrac : 1 ≤ (decay_period + warmup_steps - step) / decay_period := by
      rw [le_div_iff₀ hdp]
      linarith
    rw [clipR_of_one_le hfrac]
    rw [show (1 : ℝ) * (Real.log (if reverse then 1 - initial_value
        else initial_value) - Real.log (if reverse then 1 - final_value
        else final_value)) + Real.log (if reverse then 1 - final_value
        else final_value) = Real.log (if reverse then 1 - initial_value
        else initial_value) by ring]
    rw [Real.exp_log hi]
    cases reverse with
    | false => simp
    | true => simp
  · intro hdp hstep
    have hdp0 : decay_period ≠ 0 := ne_of_gt hdp
    simp only [exponential_decay_scheduler, if_neg hdp0]
    have hfrac : (decay_period + warmup_steps - step) / decay_period ≤ 0 := by
      apply div_nonpos_of_nonpos_of_nonneg (by linarith) (le_of_lt hdp)
    rw [clipR_of_nonpos hfrac]
    rw [show (0 : ℝ) * (Real.log (if reverse then 1 - initial_value
        else initial_value) - Real.log (if reverse then 1 - final_value
        else final_value)) + Real.log (if reverse then 1 - final_value
        else final_value) = Real.log (if reverse then 1 - final_value
        else final_value) by ring]
    rw [Real.exp_log hf]
    cases reverse with
    | false => simp
    | true => simp

/-- Witness for the amended C4 at `decay_period = 1, warmup_steps = 0,
initial_value = 1/2, final_value = 1/4, reverse = false, step = 0`. -/
theorem C4_scheduler_amended_witness :
    (0 < (if false then 1 - (1/2 : ℝ) else 1/2)) ∧
    (0 < (if false then 1 - (1/4 : ℝ) else 1/4)) ∧
    ((0 : ℝ) < 1 ∧ (0 : ℝ) ≤ 0 ∧
      exponential_decay_scheduler 1 0 (1/2) (1/4) false 0 = 1/2) :=
  ⟨by norm_num, by norm_num, by norm_num,
    le_refl 0,
    (C4_scheduler_amended 1 0 (1/2) (1/4) false 0 (by norm_num)
      (by norm_num)).2.1 (by norm_num) (le_refl 0)⟩

/-- C7: for structurally compatible parameter trees, `interpolate_weights`
with `old_weight = 1, new_weight = 0` returns the old value of every
interpolated group unchanged, and with `old_weight = 0, new_weight = 1` it
replaces every interpolated group with the corresponding fresh value. -/
theorem C7_interpolate_identity_replacement
    (old_params new_params : PTree) (keys : List String) (r1 r2 : PTree)
    (h1 : interpolate_weights old_params new_params (some keys) 1 0 true
      = some r1)
    (h2 : interpolate_weights old_params new_params (some keys) 0 1 true
      = some r2) :
    (∀ k ∈ keys, findGroup r1 k = findGroup old_params k) ∧
    (∀ k ∈ keys, findGroup r2 k = findGroup new_params k) := by
  obtain ⟨cs, new', combined, hold, hnew, hmap, hr⟩ :=
    interpolate_weights_strip_shape _ _ _ _ _ _ h1
  obtain ⟨cs2, new2, combined2, hold2, hnew2, hmap2, hr2⟩ :=
    interpolate_weights_strip_shape _ _ _ _ _ _ h2
  have hcs : cs2 = cs := by
    have := hold.symm.trans hold2
    injection this with this
    injection this with this
    exact this.symm
  have hnw : new2 = new' := by
    have := hnew.symm.trans hnew2
    injection this with this
    exact this.symm
  subst hcs
  subst hnw
  constructor
  · intro k hk
    obtain ⟨x, hx, hlk⟩ := mapM_entry_lookup _ keys combined hmap k hk
    simp only [interpolateEntry] at hx
    cases hov : List.lookup k cs2 with
    | none => rw [hov] at hx; simp at hx
    | some ov =>
      rw [hov, Option.bind_eq_bind', Option.some_bind'] at hx
      cases hnv : new2.find? k with
      | none => rw [hnv] at hx; simp at hx
      | some nv =>
        rw [hnv, Option.bind_eq_bind', Option.some_bind'] at hx
        have hxo : x = ov :=
          treeMap2_left _ (fun o n => by ring) ov nv x hx
        subst hxo
        have hrhs : findGroup old_params k = some x := by
          simp only [findGroup]
          rw [hold, Option.some_bind']
          simpa [PTree.find?] using hov
        rw [hr, findGroup_wrap, hrhs]
        show (combined ++ _).lookup k = _
        rw [lookup_append_left hlk]
  · intro k hk
    obtain ⟨x, hx, hlk⟩ := mapM_entry_lookup _ keys combined2 hmap2 k hk
    simp only [interpolateEntry] at hx
    cases hov : List.lookup k cs2 with
    | none => rw [hov] at hx; simp at hx
    | some ov =>
      rw [hov, Option.bind_eq_bind', Option.some_bind'] at hx
      cases hnv : new2.find? k with
      | none => rw [hnv] at hx; simp at hx
      | some nv =>
        rw [hnv, Option.bind_eq_bind', Option.some_bind'] at hx
        have hxo : x = nv :=
          treeMap2_right _ (fun o n => by ring) ov nv x hx
        subst hxo
        have hrhs : findGroup new_params k = some x := by
          simp only [findGroup]
          rw [hnew, Option.some_bind']
          exact hnv
        rw [hr2, findGroup_wrap, hrhs]
        show (combined2 ++ _).lookup k = _
        rw [lookup_append_left hlk]

/-- C6: on an executed (non-skipped) reset, every top-level group named in
`keys_to_copy` in the returned online parameters keeps its value from the
(possibly shrink-perturbed) pre-reset parameters, while every other group is
taken verbatim from the freshly drawn initialization — the latter under the
structural invariants real parameter sets satisfy (identical key skeletons,
a `keys_to_copy` name never reused inside another group, duplicate-free
keys). -/
theorem C6_reset_copy_semantics
    (online random op' r : PTree) (spk : List String) (sf pf : ℚ)
    (ktc : List String)
    (hop : (if spk ≠ [] then
        interpolate_weights online random (some spk) sf pf true
      else some online) = some op')
    (hr : jit_reset_online online random spk sf pf ktc = some r)
    (hparams : "params" ∉ ktc) :
    (∀ g ∈ ktc, ∀ gv, findGroup op' g = some gv → findGroup r g = some gv) ∧
    (∀ g, g ∉ ktc → ∀ sg tg, findGroup op' g = some sg →
      findGroup random g = some tg → sameShape sg tg = true →
      disjointKeys sg ktc = true → nodupKeys sg = true →
      findGroup r g = some tg) := by
  have hcp : copyParams op' random ktc = some r := by
    simp only [jit_reset_online] at hr
    by_cases hspk : spk ≠ []
    · rw [if_pos hspk] at hr hop
      rw [hop, Option.bind_eq_bind', Option.some_bind'] at hr
      exact hr
    · rw [if_neg hspk] at hr hop
      injection hop with hop
      rw [Option.bind_eq_bind', Option.some_bind'] at hr
      rw [← hop]
      exact hr
  cases op' with
  | leaf q =>
    constructor
    · intro g _ gv hgv
      simp [findGroup, PTree.find?] at hgv
    · intro g _ sg tg hsg _ _ _ _
      simp [findGroup, PTree.find?] at hsg
  | node cs0 =>
    simp only [copyParams] at hcp
    cases hcc : copyChildren cs0 random ktc with
    | none => rw [hcc] at hcp; exact absurd hcp (by simp)
    | some cs0' =>
      rw [hcc] at hcp
      injection hcp with hcp
      constructor
      · intro g hg gv hgv
        simp only [findGroup, PTree.find?] at hgv
        cases hsp : List.lookup "params" cs0 with
        | none => rw [hsp] at hgv; simp at hgv
        | some spt =>
          rw [hsp, Option.some_bind'] at hgv
          obtain ⟨tv, res, htv, hcpres, hlk'⟩ :=
            copyChildren_lookup_not_mem cs0 random ktc cs0' "params" spt
              hcc hparams hsp
          cases spt with
          | leaf q2 => simp [PTree.find?] at hgv
          | node scs =>
            simp only [copyParams] at hcpres
            cases hcc2 : copyChildren scs tv ktc with
            | none => rw [hcc2] at hcpres; exact absurd hcpres (by simp)
            | some scs' =>
              rw [hcc2] at hcpres
              injection hcpres with hcpres
              simp only [findGroup, ← hcp, PTree.find?]
              rw [hlk', Option.some_bind', ← hcpres]
              show List.lookup g scs' = some gv
              rw [copyChildren_lookup_mem scs tv ktc scs' g hcc2 hg]
              simpa [PTree.find?] using hgv
      · intro g hgn sg tg hsg htg hshape hdisj hnd
        simp only [findGroup, PTree.find?] at hsg
        cases hsp : List.lookup "params" cs0 with
        | none => rw [hsp] at hsg; simp at hsg
        | some spt =>
          rw [hsp, Option.some_bind'] at hsg
          obtain ⟨tv, res, htv, hcpres, hlk'⟩ :=
            copyChildren_lookup_not_mem cs0 random ktc cs0' "params" spt
              hcc hparams hsp
          cases spt with
          | leaf q2 => simp [PTree.find?] at hsg
          | node scs =>
            have hsg' : List.lookup g scs = some sg := by
              simpa [PTree.find?] using hsg
            simp only [copyParams] at hcpres
            cases hcc2 : copyChildren scs tv ktc with
            | none => rw [hcc2] at hcpres; exact absurd hcpres (by simp)
            | some scs' =>
              rw [hcc2] at hcpres
              injection hcpres with hcpres
              obtain ⟨tv2, res2, htv2, hcp2, hlk2⟩ :=
                copyChildren_lookup_not_mem scs tv ktc scs' g sg
                  hcc2 hgn hsg'
              have htg' : tv.find? g = some tg := by
                simp only [findGroup] at htg
                rw [htv, Option.some_bind'] at htg
                exact htg
              have htveq : tv2 = tg := by
                rw [htv2] at htg'
                exact Option.some.inj htg'
              have hcp2' : copyParams sg tg ktc = some res2 := htveq ▸ hcp2
              have hres2 : res2 = tg := by
                rw [copyParams_of_disjoint sg tg ktc hshape hdisj hnd] at hcp2'
                exact (Option.some.inj hcp2').symm
              simp only [findGroup, ← hcp, PTree.find?]
              rw [hlk', Option.some_bind', ← hcpres]
              show List.lookup g scs' = some tg
              rw [hlk2, hres2]

/-- Witness for C6 on concrete trees: `keys_to_copy = ["enc"]`, an empty
`shrink_perturb_keys` (so the pre-reset parameters are untouched before the
copy), groups `"enc"` (copied from the old parameters) and `"head"` (taken
from the fresh draw). -/
theorem C6_reset_copy_semantics_witness :
    ((if (([] : List String)) ≠ [] then
        interpolate_weights
          (PTree.node [("params", PTree.node
            [("enc", PTree.leaf 1), ("head", PTree.leaf 2)])])
          (PTree.node [("params", PTree.node
            [("enc", PTree.leaf 10), ("head", PTree.leaf 20)])])
          (some ([] : List String)) (8/10) (2/10) true
      else some (PTree.node [("params", PTree.node
            [("enc", PTree.leaf 1), ("head", PTree.leaf 2)])]))
      = some (PTree.node [("params", PTree.node
            [("enc", PTree.leaf 1), ("head", PTree.leaf 2)])])) ∧
    (jit_reset_online
        (PTree.node [("params", PTree.node
          [("enc", PTree.leaf 1), ("head", PTree.leaf 2)])])
        (PTree.node [("params", PTree.node
          [("enc", PTree.leaf 10), ("head", PTree.leaf 20)])])
        ([] : List String) (8/10) (2/10) ["enc"]
      = some (PTree.node [("params", PTree.node
          [("enc", PTree.leaf 1), ("head", PTree.leaf 20)])])) ∧
    ("params" ∉ ["enc"]) ∧
    ((∀ g ∈ ["enc"], ∀ gv,
        findGroup (PTree.node [("params", PTree.node
          [("enc", PTree.leaf 1), ("head", PTree.leaf 2)])]) g = some gv →
        findGroup (PTree.node [("params", PTree.node
          [("enc", PTree.leaf 1), ("head", PTree.leaf 20)])]) g = some gv) ∧
      (∀ g, g ∉ ["enc"] → ∀ sg tg,
        findGroup (PTree.node [("params", PTree.node
          [("enc", PTree.leaf 1), ("head", PTree.leaf 2)])]) g = some sg →
        findGroup (PTree.node [("params", PTree.node
          [("enc", PTree.leaf 10), ("head", PTree.leaf 20)])]) g = some tg →
        sameShape sg tg = true → disjointKeys sg ["enc"] = true →
        nodupKeys sg = true →
        findGroup (PTree.node [("params", PTree.node
          [("enc", PTree.leaf 1), ("head", PTree.leaf 20)])]) g = some tg)) :=
  ⟨rfl, rfl, by simp,
    C6_reset_copy_semantics _ _ _ _ ([] : List String) (8/10) (2/10) ["enc"]
      rfl rfl (by simp)⟩

/-- Witness for C7 on concrete two-group trees with `keys = ["a"]`. -/
theorem C7_interpolate_identity_replacement_witness :
    (interpolate_weights
        (PTree.node [("params", PTree.node [("a", PTree.leaf 3), ("b", PTree.leaf 7)])])
        (PTree.node [("params", PTree.node [("a", PTree.leaf 5), ("b", PTree.leaf 9)])])
        (some ["a"]) 1 0 true
      = some (PTree.node [("params", PTree.node
          [("a", PTree.leaf (3 * 1 + 5 * 0)), ("b", PTree.leaf 7)])])) ∧
    (interpolate_weights
        (PTree.node [("params", PTree.node [("a", PTree.leaf 3), ("b", PTree.leaf 7)])])
        (PTree.node [("params", PTree.node [("a", PTree.leaf 5), ("b", PTree.leaf 9)])])
        (some ["a"]) 0 1 true
      = some (PTree.node [("params", PTree.node
          [("a", PTree.leaf (3 * 0 + 5 * 1)), ("b", PTree.leaf 7)])])) ∧
    ((∀ k ∈ ["a"], findGroup (PTree.node [("params", PTree.node
          [("a", PTree.leaf (3 * 1 + 5 * 0)), ("b", PTree.leaf 7)])]) k
        = findGroup (PTree.node [("params", PTree.node
          [("a", PTree.leaf 3), ("b", PTree.leaf 7)])]) k) ∧
      (∀ k ∈ ["a"], findGroup (PTree.node [("params", PTree.node
          [("a", PTree.leaf (3 * 0 + 5 * 1)), ("b", PTree.leaf 7)])]) k
        = findGroup (PTree.node [("params", PTree.node
          [("a", PTree.leaf 5), ("b", PTree.leaf 9)])]) k)) :=
  ⟨rfl, rfl,
    C7_interpolate_identity_replacement _ _ ["a"] _ _ rfl rfl⟩

/-- C10: for every underlying iterator and prefetch depth `size ≥ 1`,
`prefetch_to_device` yields exactly the iterator's elements in order, and the
internal deque never holds more than `size` elements. -/
theorem C10_prefetch_exact_and_bounded {α : Type} (iterator : List α)
    (size : ℕ) (hsize : 1 ≤ size) :
    prefetch_to_device iterator size = iterator ∧
      ∀ n ∈ prefetchQueueLens (iterator.take size) (iterator.drop size),
        n ≤ size := by
  constructor
  · unfold prefetch_to_device
    rw [prefetchLoop_eq_append]
    · exact List.take_append_drop size iterator
    · intro hempty
      have : iterator = [] := by
        cases iterator with
        | nil => rfl
        | cons x xs =>
          exfalso
          have : size = 0 := by
            by_contra hne
            rcases Nat.exists_eq_succ_of_ne_zero hne with ⟨m, rfl⟩
            simp [List.take] at hempty
          omega
      simp [this]
  · exact prefetchQueueLens_bound size _ _ (by simp)

/-- C2: for every non-negative weight vector summing to 1, every strictly
increasing equally spaced target support of `n ≥ 2` atoms (spacing `d > 0`)
and every input support vector of matching length, `project_distribution`
is non-negative in every coordinate and its coordinates sum to 1; moreover
input values are clipped to `[v_min, v_max]` inside the coefficient, and a
clipped point at distance `≥ d` from an atom contributes zero mass to it. -/
theorem C2_project_distribution_prob (supports weights : List ℚ) (v d : ℚ)
    (n : ℕ) (hn : 2 ≤ n) (hd : 0 < d)
    (hlen : supports.length = weights.length)
    (hw : ∀ w ∈ weights, 0 ≤ w) (hsum : weights.sum = 1) :
    (∀ p ∈ project_distribution supports weights (linearSupport v d n), 0 ≤ p)
      ∧ (project_distribution supports weights (linearSupport v d n)).sum = 1
      ∧ (∀ z s : ℚ, d ≤ |clipQ s v (v + ((n : ℚ) - 1) * d) - z| →
          projectionCoeff v (v + ((n : ℚ) - 1) * d) d z s = 0) := by
  refine ⟨?_, ?_, ?_⟩
  · rw [project_distribution_linear supports weights v d n hn]
    intro p hp
    rcases List.mem_map.mp hp with ⟨z, _, rfl⟩
    exact zipWith_sum_nonneg _ supports weights
      (fun s w hw' => mul_nonneg (clipQ_nonneg _) (hw w hw'))
  · rw [project_distribution_linear supports weights v d n hn,
      proj_zipWith_swap,
      zipWith_pointmass_one _ (fun s => pointMass_eq_one n hn v d hd s)
        supports weights hlen, hsum]
  · intro z s habs
    apply clipQ_of_nonpos
    have h1 : 1 ≤ |clipQ s v (v + ((n : ℚ) - 1) * d) - z| / d := by
      rw [le_div_iff₀ hd]
      linarith
    linarith

/-- Witness for C2 at `supports = [1/2]`, `weights = [1]`,
`target_support = linspace(0, 1, 2)`. -/
theorem C2_project_distribution_prob_witness :
    ((2 : ℕ) ≤ 2 ∧ (0 : ℚ) < 1 ∧
        ([(1 : ℚ)/2].length = [(1 : ℚ)].length) ∧
        (∀ w ∈ [(1 : ℚ)], 0 ≤ w) ∧ ([(1 : ℚ)].sum = 1)) ∧
      ((∀ p ∈ project_distribution [(1 : ℚ)/2] [(1 : ℚ)]
          (linearSupport 0 1 2), 0 ≤ p)
        ∧ (project_distribution [(1 : ℚ)/2] [(1 : ℚ)]
            (linearSupport 0 1 2)).sum = 1
        ∧ (∀ z s : ℚ, 1 ≤ |clipQ s 0 (0 + ((2 : ℚ) - 1) * 1) - z| →
            projectionCoeff 0 (0 + ((2 : ℚ) - 1) * 1) 1 z s = 0)) :=
  ⟨⟨le_refl 2, by norm_num, rfl, by simp, by simp⟩,
    C2_project_distribution_prob [(1 : ℚ)/2] [(1 : ℚ)] 0 1 2
      (le_refl 2) (by norm_num) rfl (by simp) (by simp)⟩

/-- C8: projecting a weight vector that is already aligned exactly on the
target support returns it unchanged. -/
theorem C8_project_aligned_identity (weights : List ℚ) (v d : ℚ) (n : ℕ)
    (hn : 2 ≤ n) (hd : 0 < d) (hlen : weights.length = n) :
    project_distribution (linearSupport v d n) weights (linearSupport v d n)
      = weights := by
  have h2 : (2 : ℚ) ≤ (n : ℚ) := by exact_mod_cast hn
  rw [project_distribution_linear _ weights v d n hn]
  apply List.ext_getElem
  · rw [List.length_map, linearSupport_length, hlen]
  intro i h1 h2i
  rw [List.getElem_map, linearSupport_getElem]
  have hi : i < n := by
    simpa [List.length_map, linearSupport_length] using h1
  rw [zipWith_sum_getD _ _ _ (by rw [linearSupport_length, hlen]),
    linearSupport_length]
  rw [Finset.sum_eq_single i]
  · rw [linearSupport_getD v d hi]
    unfold projectionCoeff
    have hmem : v ≤ v + (i : ℚ) * d ∧ v + (i : ℚ) * d ≤ v + ((n : ℚ) - 1) * d := by
      constructor
      · nlinarith [Nat.cast_nonneg (α := ℚ) i]
      · have : (i : ℚ) ≤ (n : ℚ) - 1 := by
          have : (i : ℚ) + 1 ≤ (n : ℚ) := by exact_mod_cast hi
          linarith
        nlinarith
    rw [clipQ_of_le hmem.1 hmem.2]
    simp only [sub_self, abs_zero, zero_div, sub_zero]
    rw [clipQ_of_mem zero_le_one le_rfl, one_mul,
      List.getD_eq_getElem _ 0 (by omega)]
  · intro j hj hne
    rw [linearSupport_getD v d (Finset.mem_range.mp hj)]
    unfold projectionCoeff
    have hjn := Finset.mem_range.mp hj
    have hmem : v ≤ v + (j : ℚ) * d ∧ v + (j : ℚ) * d ≤ v + ((n : ℚ) - 1) * d := by
      constructor
      · nlinarith [Nat.cast_nonneg (α := ℚ) j]
      · have : (j : ℚ) ≤ (n : ℚ) - 1 := by
          have : (j : ℚ) + 1 ≤ (n : ℚ) := by exact_mod_cast hjn
          linarith
        nlinarith
    rw [clipQ_of_le hmem.1 hmem.2]
    have habs : |v + (j : ℚ) * d - (v + (i : ℚ) * d)|
        = |(j : ℚ) - (i : ℚ)| * d := by
      rw [show v + (j : ℚ) * d - (v + (i : ℚ) * d) = ((j : ℚ) - (i : ℚ)) * d
        by ring, abs_mul, abs_of_pos hd]
    rw [habs]
    have hone := one_le_abs_cast_sub hne
    have hzero : clipQ (1 - |(j : ℚ) - (i : ℚ)| * d / d) 0 1 = 0 := by
      apply clipQ_of_nonpos
      rw [mul_div_assoc, div_self (ne_of_gt hd), mul_one]
      linarith
    rw [hzero, zero_mul]
  · intro habs
    exact absurd (Finset.mem_range.mpr hi) habs

/-- Witness for C8 at `weights = [1/3, 2/3]`, `target_support = linspace(0,1,2)`. -/
theorem C8_project_aligned_identity_witness :
    ((2 : ℕ) ≤ 2 ∧ (0 : ℚ) < 1 ∧ [(1 : ℚ)/3, 2/3].length = 2) ∧
      project_distribution (linearSupport 0 1 2) [(1 : ℚ)/3, 2/3]
        (linearSupport 0 1 2) = [(1 : ℚ)/3, 2/3] :=
  ⟨⟨le_refl 2, by norm_num, rfl⟩,
    C8_project_aligned_identity [(1 : ℚ)/3, 2/3] 0 1 2
      (le_refl 2) (by norm_num) rfl⟩

/-- Witness for C10 at a concrete iterator and depth 2. -/
theorem C10_prefetch_witness :
    (1 ≤ 2) ∧
      (prefetch_to_device [10, 20, 30] 2 = [10, 20, 30] ∧
        ∀ n ∈ prefetchQueueLens ([10, 20, 30].take 2) ([10, 20, 30].drop 2),
          n ≤ 2) :=
  ⟨by decide, C10_prefetch_exact_and_bounded [10, 20, 30] 2 (by decide)⟩
